import Mathlib

/-!
Verification of `pyro/contrib/outbreak/sir.py` (class `SIRModel`).

The model is a discrete-time SIR compartmental model with explicitly
tracked compartments `S` and `I` (`R` is implicit).  Counts are embedded
as integers (`ℤ`), probabilities and tensor entries as exact reals (`ℝ`),
and log-probabilities as extended reals (`EReal`, with `⊥` standing for
the IEEE `-inf` produced by `ExtendedBinomial.log_prob` outside its
support).  Stochastic draws (`pyro.sample` of `S2I_t` / `I2R_t`) are
embedded by universally quantifying over the drawn values.
-/

/-- Compartment state: the mapping `{"S": ..., "I": ...}` used by
`initialize` / `transition_fwd` / `transition_bwd`. -/
structure SIRState where
  S : ℤ
  I : ℤ
deriving DecidableEq, Repr

/-- `initialize(params)` (sir.py line 66): `{"S": population - 1, "I": 1}`. -/
def init_state (population : ℤ) : SIRState :=
  { S := population - 1, I := 1 }

/-- The deterministic state update of `transition_fwd` (sir.py lines 77-78),
given the drawn values `d = (S2I, I2R)`:
`state["S"] = state["S"] - S2I; state["I"] = state["I"] + S2I - I2R`. -/
def stepFwd (st : SIRState) (d : ℤ × ℤ) : SIRState :=
  { S := st.S - d.1, I := st.I + d.1 - d.2 }

/-- The list of successive states produced by repeated `transition_fwd`
calls from state `st`, one per drawn pair in `ds` (initial state not
included). -/
def runFwd (st : SIRState) : List (ℤ × ℤ) → List SIRState
  | [] => []
  | d :: ds => stepFwd st d :: runFwd (stepFwd st d) ds

/-- `transition_bwd`'s reconstruction of `S2I` (sir.py line 90):
`S2I = prev["S"] - curr["S"]`. -/
def bwdS2I (prev curr : SIRState) : ℤ :=
  prev.S - curr.S

/-- `transition_bwd`'s reconstruction of `I2R` (sir.py line 91):
`I2R = prev["I"] - curr["I"] + S2I`. -/
def bwdI2R (prev curr : SIRState) : ℤ :=
  prev.I - curr.I + bwdS2I prev curr

/-- `transition_bwd`'s reconstruction algebra applied to each pair of
consecutive states of a trajectory (the state preceding the head is
`st`). -/
def reconstruct (st : SIRState) : List SIRState → List (ℤ × ℤ)
  | [] => []
  | c :: rest => (bwdS2I st c, bwdI2R st c) :: reconstruct c rest

/-- C1: round-trip law.  For every trajectory produced by repeated
`transition_fwd` state updates from any state, applying `transition_bwd`'s
reconstruction algebra (`S2I = prev.S - curr.S`,
`I2R = prev.I - curr.I + S2I`) to each pair of consecutive states
reproduces exactly the `S2I_t` and `I2R_t` values drawn forward. -/
theorem roundtrip_fwd_bwd (st : SIRState) (ds : List (ℤ × ℤ)) :
    reconstruct st (runFwd st ds) = ds := by
  induction ds generalizing st with
  | nil => rfl
  | cons d ds ih =>
      simp only [runFwd, reconstruct, ih]
      simp only [bwdS2I, bwdI2R, stepFwd]
      obtain ⟨a, b⟩ := d
      simp only [Prod.mk.injEq, List.cons.injEq, and_true]
      constructor
      · omega
      · omega

/-- `global_model` (sir.py lines 53-62) as a function of the sampled values
`R0 ~ LogNormal(0, 1)` and `rho ~ Uniform(0, 1)` and of the model constants
`population` and `tau = recovery_time`:
`rate_s = -R0 / (tau * self.population)`, `prob_i = 1 / (1 + tau)`,
returning the tuple `(rate_s, prob_i, rho)`. -/
noncomputable def global_model (population : ℤ) (tau R0 rho : ℝ) : ℝ × ℝ × ℝ :=
  (-R0 / (tau * (population : ℝ)), 1 / (1 + tau), rho)

/-- C4: `global_model` deterministically derives
`rate_s = -R0 / (recovery_time * population)` and
`prob_i = 1 / (1 + recovery_time)` and returns `(rate_s, prob_i, rho)`;
with `population = 1000`, `recovery_time = 10.0` and `R0 = 2.0` this gives
`rate_s = -0.0002` exactly and `prob_i = 1/11`. -/
theorem global_model_values (rho : ℝ) :
    global_model 1000 10 2 rho = (-0.0002, 1 / 11, rho) := by
  unfold global_model
  norm_num

/-- `torch.Tensor.expm1`: `expm1 x = exp x - 1` (exact-real semantics). -/
noncomputable def expm1 (x : ℝ) : ℝ :=
  Real.exp x - 1

/-- `prob_s` as computed in `transition_fwd` (sir.py line 72) and
`transition_bwd` (sir.py line 94): `prob_s = -(rate_s * I).expm1()`. -/
noncomputable def prob_s (rate_s I : ℝ) : ℝ :=
  -(expm1 (rate_s * I))

/-- C3: Binomial-parameter validity of `prob_s`.  For every `R0 > 0`,
`recovery_time tau > 0`, `population >= 1` and non-negative infected count
`I`, the value `prob_s` computed in `transition_fwd` from the `rate_s`
returned by `global_model` lies in `[0, 1)`. -/
theorem prob_s_mem_Ico (R0 tau rho I : ℝ) (population : ℤ)
    (hR0 : 0 < R0) (htau : 0 < tau) (hpop : 1 ≤ population) (hI : 0 ≤ I) :
    0 ≤ prob_s (global_model population tau R0 rho).1 I ∧
      prob_s (global_model population tau R0 rho).1 I < 1 := by
  have hpopR : (0 : ℝ) < (population : ℝ) := by
    exact_mod_cast lt_of_lt_of_le one_pos hpop
  have hrate : (global_model population tau R0 rho).1 < 0 := by
    unfold global_model
    simp only
    apply div_neg_of_neg_of_pos
    · linarith
    · positivity
  have hprod : (global_model population tau R0 rho).1 * I ≤ 0 :=
    mul_nonpos_iff.mpr (Or.inr ⟨le_of_lt hrate, hI⟩)
  have hexp_le : Real.exp ((global_model population tau R0 rho).1 * I) ≤ 1 := by
    have := Real.exp_le_exp.mpr hprod
    rwa [Real.exp_zero] at this
  have hexp_pos : 0 < Real.exp ((global_model population tau R0 rho).1 * I) :=
    Real.exp_pos _
  unfold prob_s expm1
  constructor
  · linarith
  · linarith

/-- Witness for C3 at `R0 = 2`, `tau = 10`, `rho = 1/2`, `I = 1`,
`population = 1000`. -/
theorem prob_s_mem_Ico_witness :
    (0 : ℝ) < 2 ∧ (0 : ℝ) < 10 ∧ (1 : ℤ) ≤ 1000 ∧ (0 : ℝ) ≤ 1 ∧
      (0 ≤ prob_s (global_model 1000 10 2 (1 / 2)).1 1 ∧
        prob_s (global_model 1000 10 2 (1 / 2)).1 1 < 1) :=
  ⟨by norm_num, by norm_num, by norm_num, by norm_num,
    prob_s_mem_Ico 2 10 (1 / 2) 1 1000 (by norm_num) (by norm_num)
      (by norm_num) (by norm_num)⟩

/-- The state after `t` `transition_fwd` state-update steps from `st`,
consuming the first `t` drawn pairs of `ds` (saturating past the end). -/
def stateAt (st : SIRState) (ds : List (ℤ × ℤ)) (t : ℕ) : SIRState :=
  (ds.take t).foldl stepFwd st

/-- The running sum of the `I2R` draws over the first `t` steps: the
implicit recovered compartment `R_t`. -/
def cumI2R (ds : List (ℤ × ℤ)) (t : ℕ) : ℤ :=
  ((ds.take t).map Prod.snd).sum

theorem foldl_stepFwd_conserve (ds : List (ℤ × ℤ)) (st : SIRState) :
    (ds.foldl stepFwd st).S + (ds.foldl stepFwd st).I + (ds.map Prod.snd).sum
      = st.S + st.I := by
  induction ds generalizing st with
  | nil => simp
  | cons d ds ih =>
      simp only [List.foldl_cons, List.map_cons, List.sum_cons]
      have := ih (stepFwd st d)
      simp only [stepFwd] at this ⊢
      omega

/-- C5: closed-population conservation.  Starting from the state
`{"S": population - 1, "I": 1}` produced by `initialize` and applying the
`transition_fwd` updates, `S_t + I_t + (I2R_1 + ... + I2R_t) = population`
at every time step `t`; equivalently the implicit recovered count
`R_t = population - S_t - I_t` equals the running sum of the `I2R` draws. -/
theorem conservation (population : ℤ) (ds : List (ℤ × ℤ)) (t : ℕ) :
    (stateAt (init_state population) ds t).S
        + (stateAt (init_state population) ds t).I + cumI2R ds t
      = population := by
  unfold stateAt cumI2R
  have h1 := foldl_stepFwd_conserve (ds.take t) (init_state population)
  have h2 : (init_state population).S = population - 1 := rfl
  have h3 : (init_state population).I = 1 := rfl
  omega

/-- The support condition of the two Binomial draws of `transition_fwd`
(sir.py lines 73-76) along a trajectory: each `S2I_t` drawn from
`Binomial(S_t-1, prob_s)` is a non-negative count bounded by its total
`S_t-1`, and likewise `I2R_t` from `Binomial(I_t-1, prob_i)`. -/
def validDraws : SIRState → List (ℤ × ℤ) → Prop
  | _, [] => True
  | st, d :: ds =>
      (0 ≤ d.1 ∧ d.1 ≤ st.S ∧ 0 ≤ d.2 ∧ d.2 ≤ st.I) ∧ validDraws (stepFwd st d) ds

instance instDecidableValidDraws :
    (st : SIRState) → (ds : List (ℤ × ℤ)) → Decidable (validDraws st ds)
  | _, [] => Decidable.isTrue trivial
  | st, d :: ds =>
      have : Decidable (validDraws (stepFwd st d) ds) :=
        instDecidableValidDraws (stepFwd st d) ds
      decidable_of_iff
        ((0 ≤ d.1 ∧ d.1 ≤ st.S ∧ 0 ≤ d.2 ∧ d.2 ≤ st.I)
          ∧ validDraws (stepFwd st d) ds)
        Iff.rfl

theorem validDraws_nonneg (st : SIRState) (ds : List (ℤ × ℤ))
    (h : validDraws st ds) : ∀ d ∈ ds, 0 ≤ d.1 ∧ 0 ≤ d.2 := by
  induction ds generalizing st with
  | nil => intro d hd; cases hd
  | cons e es ih =>
      intro d hd
      obtain ⟨h1, h2⟩ := h
      rcases List.mem_cons.mp hd with rfl | hd
      · exact ⟨h1.1, h1.2.2.1⟩
      · exact ih (stepFwd st e) h2 d hd

theorem stateAt_S_succ_le (st : SIRState) (ds : List (ℤ × ℤ))
    (hnn : ∀ d ∈ ds, 0 ≤ d.1 ∧ 0 ≤ d.2) (n : ℕ) :
    (stateAt st ds (n + 1)).S ≤ (stateAt st ds n).S := by
  unfold stateAt
  rw [List.take_succ]
  cases hget : ds[n]? with
  | none => simp [hget]
  | some d =>
      simp only [Option.toList_some, List.foldl_append, List.foldl_cons,
        List.foldl_nil]
      have hd := (hnn d (List.getElem?_mem hget)).1
      simp only [stepFwd]
      omega

theorem cumI2R_succ_le (ds : List (ℤ × ℤ))
    (hnn : ∀ d ∈ ds, 0 ≤ d.1 ∧ 0 ≤ d.2) (n : ℕ) :
    cumI2R ds n ≤ cumI2R ds (n + 1) := by
  unfold cumI2R
  rw [List.take_succ]
  cases hget : ds[n]? with
  | none => simp [hget]
  | some d =>
      simp only [Option.toList_some, List.map_append, List.map_cons,
        List.map_nil, List.sum_append, List.sum_cons, List.sum_nil]
      have hd := (hnn d (List.getElem?_mem hget)).2
      omega

/-- C6: monotonicity along any forward-sampled trajectory.  When every
drawn `S2I_t` and `I2R_t` is a non-negative count bounded by its Binomial
total, `S_t` is non-increasing in `t` and the cumulative number of
recoveries (running sum of the `I2R_t`) is non-decreasing in `t`. -/
theorem sir_monotone (st : SIRState) (ds : List (ℤ × ℤ))
    (h : validDraws st ds) (t u : ℕ) (htu : t ≤ u) :
    (stateAt st ds u).S ≤ (stateAt st ds t).S ∧ cumI2R ds t ≤ cumI2R ds u := by
  have hnn := validDraws_nonneg st ds h
  constructor
  · have hA : Antitone fun n => (stateAt st ds n).S :=
      antitone_nat_of_succ_le (stateAt_S_succ_le st ds hnn)
    exact hA htu
  · have hM : Monotone fun n => cumI2R ds n :=
      monotone_nat_of_le_succ (cumI2R_succ_le ds hnn)
    exact hM htu

/-- Witness for C6 on the trajectory from `{S := 999, I := 1}` with draws
`(2, 1)` then `(3, 0)`. -/
theorem sir_monotone_witness :
    validDraws ⟨999, 1⟩ [(2, 1), (3, 0)] ∧ (0 : ℕ) ≤ 2 ∧
      ((stateAt ⟨999, 1⟩ [(2, 1), (3, 0)] 2).S
          ≤ (stateAt ⟨999, 1⟩ [(2, 1), (3, 0)] 0).S
        ∧ cumI2R [(2, 1), (3, 0)] 0 ≤ cumI2R [(2, 1), (3, 0)] 2) :=
  ⟨by decide, by decide,
    sir_monotone ⟨999, 1⟩ [(2, 1), (3, 0)] (by decide) 0 2 (by decide)⟩

/-- The `obs` keyword argument of the `pyro.sample` call for `obs_t` in
`transition_fwd` (sir.py line 83):
`self.data[t] if t < self.duration else None`, with
`duration = len(data)`; the data sequence is only indexed under the
bounds check. -/
def fwdObs (data : List ℤ) (t : ℕ) : Option ℤ :=
  if h : t < data.length then some (data.get ⟨t, h⟩) else none

/-- C7: forecast edge case of `transition_fwd`.  For every step index `t`
at or past the duration (the length of `data`), the observation variable
`obs_t` gets `obs = None` and `data[t]` is never read; for `t` strictly
below the duration it is conditioned on `data[t]`. -/
theorem fwdObs_forecast (data : List ℤ) (t : ℕ) :
    (data.length ≤ t → fwdObs data t = none) ∧
      ∀ h : t < data.length, fwdObs data t = some (data.get ⟨t, h⟩) := by
  constructor
  · intro hle
    unfold fwdObs
    rw [dif_neg (by omega)]
  · intro h
    unfold fwdObs
    rw [dif_pos h]

/-- Witness for C7 with `data = [1, 2]`: at `t = 5` (past the horizon) the
observation is unconditioned, at `t = 0` it is conditioned on `data[0]`. -/
theorem fwdObs_forecast_witness :
    (([1, 2] : List ℤ).length ≤ 5 ∧ fwdObs [1, 2] 5 = none) ∧
      (0 < ([1, 2] : List ℤ).length ∧ fwdObs [1, 2] 0 = some 1) :=
  ⟨⟨by decide, (fwdObs_forecast [1, 2] 5).1 (by decide)⟩,
    ⟨by decide, (fwdObs_forecast [1, 2] 0).2 (by decide)⟩⟩

/-- Exact-real log of the Binomial pmf of `Binomial(n, p)` at `k`, used
only on the support `0 ≤ k ≤ n`:
`log (choose n k * p^k * (1-p)^(n-k))`. -/
noncomputable def binomLogPmf (n : ℤ) (p : ℝ) (k : ℤ) : ℝ :=
  Real.log ((n.toNat.choose k.toNat : ℝ) * p ^ k.toNat * (1 - p) ^ (n - k).toNat)

/-- `pyro.distributions.ExtendedBinomial(n, p).log_prob(k)`: the Binomial
log-pmf on the support `0 ≤ k ≤ n`, and `-inf` (embedded as `⊥ : EReal`)
outside it. -/
noncomputable def extBinomLogProb (n : ℤ) (p : ℝ) (k : ℤ) : EReal :=
  if 0 ≤ k ∧ k ≤ n then ((binomLogPmf n p k : ℝ) : EReal) else ⊥

/-- Plain `Binomial(n, p).log_prob(k)`, the distribution named by claim C2
for the first two factors: its log-probability is defined (`some`) only on
the support `0 ≤ k ≤ n`; outside the support argument validation rejects
the value (and the lgamma formula is not a log-probability there), modelled
as `none`.  This definition follows the claim's words and exists for the
refinement comparison against `extBinomLogProb`, which is what the source
uses. -/
noncomputable def binomialLogProb (n : ℤ) (p : ℝ) (k : ℤ) : Option ℝ :=
  if 0 ≤ k ∧ k ≤ n then some (binomLogPmf n p k) else none

/-- `transition_bwd` (sir.py lines 85-98) with `params = (rate_s, prob_i,
rho)`: reads `obs = self.data[t]` (`t` within the horizon per the engine
contract), reconstructs `S2I = prev["S"] - curr["S"]` and
`I2R = prev["I"] - curr["I"] + S2I`, computes
`prob_s = -(rate_s * prev["I"]).expm1()`, and returns
`obs_logp + S2I_logp + I2R_logp` where all three factors use
`dist.ExtendedBinomial` (lines 95-97). -/
noncomputable def transition_bwd (params : ℝ × ℝ × ℝ) (prev curr : SIRState)
    (data : List ℤ) (t : ℕ) (ht : t < data.length) : EReal :=
  let obs := data.get ⟨t, ht⟩
  let S2I := prev.S - curr.S
  let I2R := prev.I - curr.I + S2I
  let ps := prob_s params.1 (prev.I : ℝ)
  let S2I_logp := extBinomLogProb prev.S ps S2I
  let I2R_logp := extBinomLogProb prev.I params.2.1 I2R
  let obs_logp := extBinomLogProb (max S2I 0) params.2.2 obs
  obs_logp + S2I_logp + I2R_logp

/-- The property claim C2 asserts of one input, following the claim's
words: `transition_bwd` returns the sum of the log-probability of `S2I`
under plain `Binomial(prev.S, prob_s)`, that of `I2R` under plain
`Binomial(prev.I, prob_i)`, and that of `data[t]` under
`ExtendedBinomial(max(S2I, 0), rho)`. -/
noncomputable def bwdPlainBinomialSum (params : ℝ × ℝ × ℝ)
    (prev curr : SIRState) (data : List ℤ) (t : ℕ) (ht : t < data.length) :
    Prop :=
  ∃ a b : ℝ,
    binomialLogProb prev.S (prob_s params.1 (prev.I : ℝ)) (bwdS2I prev curr)
        = some a ∧
      binomialLogProb prev.I params.2.1 (bwdI2R prev curr) = some b ∧
      transition_bwd params prev curr data t ht =
        (a : EReal) + (b : EReal)
          + extBinomLogProb (max (bwdS2I prev curr) 0) params.2.2
              (data.get ⟨t, ht⟩)

/-- Counterexample to C2 as stated: at `prev = {S: 5, I: 5}`,
`curr = {S: 6, I: 5}` (a numerically relaxed pair with `S2I = -1`, exactly
the situation the clamp on line 97 anticipates), plain
`Binomial(prev.S, prob_s).log_prob(S2I)` is not defined at the negative
count `-1`, so `transition_bwd`'s return value is not a sum of plain
Binomial log-probabilities; the source instead uses `ExtendedBinomial`
(lines 95-96), which yields `-inf` there. -/
theorem transition_bwd_not_plain_binomial_sum :
    ¬ bwdPlainBinomialSum (-1 / 5000, 1 / 11, 1 / 2) ⟨5, 5⟩ ⟨6, 5⟩ [1] 0
        (by decide) := by
  rintro ⟨a, b, h1, h2, h3⟩
  norm_num [binomialLogProb, bwdS2I] at h1
  exact Option.noConfusion h1

/-- C2 (amended): `transition_bwd` returns exactly the sum of three
log-probabilities — that of `S2I = prev.S - curr.S` under
`ExtendedBinomial(prev.S, prob_s)` (not plain `Binomial`), that of
`I2R = prev.I - curr.I + S2I` under `ExtendedBinomial(prev.I, prob_i)`
(not plain `Binomial`), and that of the observed count `data[t]` under
`ExtendedBinomial(max(S2I, 0), rho)` — where `prob_s` is computed from
`prev.I`. -/
theorem transition_bwd_sum (params : ℝ × ℝ × ℝ) (prev curr : SIRState)
    (data : List ℤ) (t : ℕ) (ht : t < data.length) :
    transition_bwd params prev curr data t ht =
      extBinomLogProb prev.S (prob_s params.1 (prev.I : ℝ)) (bwdS2I prev curr)
        + extBinomLogProb prev.I params.2.1 (bwdI2R prev curr)
        + extBinomLogProb (max (bwdS2I prev curr) 0) params.2.2
            (data.get ⟨t, ht⟩) := by
  simp only [transition_bwd, bwdS2I, bwdI2R]
  abel

/-- Witness for C2 (amended) at a concrete forward-consistent input:
`prev = {S: 999, I: 1}`, `curr = {S: 997, I: 2}`, `data = [2]`, `t = 0`. -/
theorem transition_bwd_sum_witness :
    transition_bwd (-1 / 5000, 1 / 11, 1 / 2) ⟨999, 1⟩ ⟨997, 2⟩ [2] 0
        (by decide) =
      extBinomLogProb 999 (prob_s (-1 / 5000) ((1 : ℤ) : ℝ))
          (bwdS2I ⟨999, 1⟩ ⟨997, 2⟩)
        + extBinomLogProb 1 (1 / 11) (bwdI2R ⟨999, 1⟩ ⟨997, 2⟩)
        + extBinomLogProb (max (bwdS2I ⟨999, 1⟩ ⟨997, 2⟩) 0) (1 / 2) 2 := by
  exact transition_bwd_sum (-1 / 5000, 1 / 11, 1 / 2) ⟨999, 1⟩ ⟨997, 2⟩ [2] 0
    (by decide)

/-- The in-place dict mutation of `transition_fwd` (sir.py lines 77-78) on
a state mapping that may carry arbitrary keys:
`state["S"] = state["S"] - S2I` followed by
`state["I"] = state["I"] + S2I - I2R` (the second line reading the mapping
as left by the first). -/
def transition_fwd_write (state : String → ℤ) (S2I I2R : ℤ) : String → ℤ :=
  let state1 := Function.update state "S" (state "S" - S2I)
  Function.update state1 "I" (state1 "I" + S2I - I2R)

/-- C10: frame property of `transition_fwd`'s state mutation.  The update
writes exactly the keys `"S"` and `"I"` — every other key keeps its value —
and the values written are `S - S2I` and `I + S2I - I2R`; the parameters
and the stored data take no part in the update (they are not inputs of the
state write at all). -/
theorem transition_fwd_frame (state : String → ℤ) (S2I I2R : ℤ) :
    (∀ k, k ≠ "S" → k ≠ "I" → transition_fwd_write state S2I I2R k = state k)
      ∧ transition_fwd_write state S2I I2R "S" = state "S" - S2I
      ∧ transition_fwd_write state S2I I2R "I" = state "I" + S2I - I2R := by
  have hSI : ("S" : String) ≠ "I" := by decide
  refine ⟨?_, ?_, ?_⟩
  · intro k hkS hkI
    simp only [transition_fwd_write, Function.update_noteq hkI,
      Function.update_noteq hkS]
  · simp only [transition_fwd_write, Function.update_noteq hSI,
      Function.update_same]
  · simp only [transition_fwd_write, Function.update_same,
      Function.update_noteq (Ne.symm hSI)]

/-- Witness for C10 on a mapping with an extra key `"R"`: the `"R"` entry
is untouched by the update. -/
theorem transition_fwd_frame_witness :
    ("R" : String) ≠ "S" ∧ ("R" : String) ≠ "I" ∧
      transition_fwd_write
          (fun k => if k = "S" then 10 else if k = "I" then 3 else 7) 2 1 "R"
        = (fun k => if k = "S" then (10 : ℤ) else if k = "I" then 3 else 7)
            "R" :=
  ⟨by decide, by decide,
    (transition_fwd_frame
        (fun k => if k = "S" then 10 else if k = "I" then 3 else 7) 2 1).1
      "R" (by decide) (by decide)⟩

/-- The scale `min(2., (S0 / data.sum()).sqrt())` of `heuristic`
(sir.py line 40) under the numeric semantics of the source: IEEE float
division by zero yields `±inf` (`nan` for `0/0`), `sqrt` of a negative
number or of `nan` yields `nan`, and Python `min(2., x)` returns `2.` when
`x` is `+inf` or `nan`; hence the factor is `2` whenever `data.sum() = 0`
or the quotient is negative, and `min 2 (sqrt (S0 / sum))` otherwise. -/
noncomputable def scaleFactor (S0 s : ℝ) : ℝ :=
  if s = 0 then 2
  else if S0 / s < 0 then 2
  else min 2 (Real.sqrt (S0 / s))

/-- The estimated true new-infection series
`S2I = self.data * min(2., (S0 / self.data.sum()).sqrt())`
(sir.py line 40). -/
noncomputable def estS2I (S0 : ℝ) (data : List ℝ) : List ℝ :=
  data.map fun x => x * scaleFactor S0 data.sum

/-- Running cumulative sums with carried accumulator, the recursion behind
torch `cumsum(-1)`. -/
def cumsumFrom (acc : ℝ) : List ℝ → List ℝ
  | [] => []
  | x :: xs => (acc + x) :: cumsumFrom (acc + x) xs

/-- torch `cumsum(-1)`: entry `k` is the sum of entries `0..k`. -/
def cumsum (xs : List ℝ) : List ℝ :=
  cumsumFrom 0 xs

/-- `S_aux = (S0 - S2I.cumsum(-1)).clamp(min=0.5)` (sir.py line 41),
computed before the `S2I[0] += 1` adjustment. -/
noncomputable def S_aux_of (S0 : ℝ) (data : List ℝ) : List ℝ :=
  (cumsum (estS2I S0 data)).map fun c => max (S0 - c) 0.5

/-- `S2I[0] += 1` (sir.py line 43): account for the single initial
infection. -/
def headAdd1 : List ℝ → List ℝ
  | [] => []
  | x :: xs => (x + 1) :: xs

/-- `recovery = torch.arange(30.).div(self.recovery_time).neg().exp()`
(sir.py line 45): the kernel `exp(-k / tau)` for `k = 0, ..., 29`. -/
noncomputable def recoveryKernel (tau : ℝ) : List ℝ :=
  (List.range 30).map fun (k : ℕ) => Real.exp (-((k : ℝ) / tau))

/-- `pyro.ops.tensor_utils.convolve(x, y)` (mode "full"): entry `k` of the
result is `sum over i + j = k of x[i] * y[j]`, with
`len = len(x) + len(y) - 1`. -/
def conv (xs ys : List ℝ) : List ℝ :=
  (List.range (xs.length + ys.length - 1)).map fun k =>
    ((List.range (k + 1)).map fun i => xs.getD i 0 * ys.getD (k - i) 0).sum

/-- `I_aux = convolve(S2I, recovery)[:len(self.data)].clamp(min=0.5)`
(sir.py line 46), where `S2I` carries the `+1` head adjustment. -/
noncomputable def I_aux_of (S0 tau : ℝ) (data : List ℝ) : List ℝ :=
  ((conv (headAdd1 (estS2I S0 data)) (recoveryKernel tau)).take
      data.length).map fun x => max x 0.5

/-- The `"auxiliary"` entry of the mapping returned by `heuristic`
(sir.py lines 36-51): `torch.stack([S_aux, I_aux])`, a stack of one row per
tracked compartment, with `S0 = self.population - 1`. -/
noncomputable def heuristic_aux (population : ℤ) (tau : ℝ)
    (data : List ℝ) : List (List ℝ) :=
  [S_aux_of ((population : ℝ) - 1) data, I_aux_of ((population : ℝ) - 1) tau data]

/-- `heuristic` (sir.py lines 47-51) returns
`{"R0": 2.0, "rho": 0.5, "auxiliary": stack([S_aux, I_aux])}`. -/
noncomputable def heuristic (population : ℤ) (tau : ℝ) (data : List ℝ) :
    ℝ × ℝ × List (List ℝ) :=
  (2, 0.5, heuristic_aux population tau data)

theorem cumsumFrom_length (acc : ℝ) (xs : List ℝ) :
    (cumsumFrom acc xs).length = xs.length := by
  induction xs generalizing acc with
  | nil => rfl
  | cons x xs ih => simp [cumsumFrom, ih]

theorem S_aux_length (S0 : ℝ) (data : List ℝ) :
    (S_aux_of S0 data).length = data.length := by
  simp [S_aux_of, cumsum, cumsumFrom_length, estS2I]

theorem headAdd1_length (xs : List ℝ) : (headAdd1 xs).length = xs.length := by
  cases xs <;> simp [headAdd1]

theorem estS2I_length (S0 : ℝ) (data : List ℝ) :
    (estS2I S0 data).length = data.length := by
  simp [estS2I]

theorem recoveryKernel_length (tau : ℝ) : (recoveryKernel tau).length = 30 := by
  rw [recoveryKernel, List.length_map, List.length_range]

theorem I_aux_length (S0 tau : ℝ) (data : List ℝ) :
    (I_aux_of S0 tau data).length = data.length := by
  simp only [I_aux_of, List.length_map, List.length_take, conv,
    List.length_range, headAdd1_length, estS2I_length, recoveryKernel_length]
  omega

theorem heuristic_aux_rows (population : ℤ) (tau : ℝ) (data : List ℝ) :
    ∀ row ∈ heuristic_aux population tau data,
      row.length = data.length ∧ ∀ x ∈ row, (0.5 : ℝ) ≤ x := by
  intro row hrow
  rcases List.mem_pair.mp hrow with rfl | rfl
  · refine ⟨S_aux_length _ _, ?_⟩
    intro x hx
    obtain ⟨c, _, rfl⟩ := List.mem_map.mp hx
    exact le_max_right _ _
  · refine ⟨I_aux_length _ _ _, ?_⟩
    intro x hx
    obtain ⟨c, _, rfl⟩ := List.mem_map.mp hx
    exact le_max_right _ _

/-- C9: heuristic output shape and floor.  For data with a positive sum,
the `"auxiliary"` value of `heuristic` is a stack of exactly
`len(compartments) = 2` rows, each of exactly `duration = len(data)`
columns (the convolution result being truncated to the data length), and
every entry of both rows is at least `0.5`. -/
theorem heuristic_aux_shape (population : ℤ) (tau : ℝ) (data : List ℝ)
    (_hsum : 0 < data.sum) :
    (heuristic_aux population tau data).length = 2 ∧
      ∀ row ∈ heuristic_aux population tau data,
        row.length = data.length ∧ ∀ x ∈ row, (0.5 : ℝ) ≤ x :=
  ⟨rfl, heuristic_aux_rows population tau data⟩

/-- Witness for C9 with `population = 1000`, `tau = 10`,
`data = [1, 2, 4]`. -/
theorem heuristic_aux_shape_witness :
    (0 : ℝ) < ([1, 2, 4] : List ℝ).sum ∧
      ((heuristic_aux 1000 10 [1, 2, 4]).length = 2 ∧
        ∀ row ∈ heuristic_aux 1000 10 [1, 2, 4],
          row.length = ([1, 2, 4] : List ℝ).length ∧
            ∀ x ∈ row, (0.5 : ℝ) ≤ x) :=
  ⟨by norm_num, heuristic_aux_shape 1000 10 [1, 2, 4] (by norm_num)⟩

/-- C8: heuristic zero-data boundary.  With all-zero observed data
(`data.sum() == 0`), the division `S0 / data.sum()` does not make
`heuristic` fail — its numeric effect is absorbed: the scale factor
evaluates to `2` — and both rows of the `"auxiliary"` output are
everywhere non-negative (indeed at least `0.5`) real values, hence
finite. -/
theorem heuristic_zero_data (population : ℤ) (tau : ℝ) (data : List ℝ)
    (hzero : ∀ x ∈ data, x = 0) :
    scaleFactor ((population : ℝ) - 1) data.sum = 2 ∧
      ∀ row ∈ heuristic_aux population tau data, ∀ x ∈ row, (0 : ℝ) ≤ x := by
  constructor
  · rw [List.sum_eq_zero hzero]
    simp [scaleFactor]
  · intro row hrow x hx
    have h := ((heuristic_aux_rows population tau data) row hrow).2 x hx
    linarith

/-- Witness for C8 with `population = 1000`, `tau = 10`,
`data = [0, 0, 0]`. -/
theorem heuristic_zero_data_witness :
    (∀ x ∈ ([0, 0, 0] : List ℝ), x = 0) ∧
      (scaleFactor ((1000 : ℤ) - 1 : ℝ) ([0, 0, 0] : List ℝ).sum = 2 ∧
        ∀ row ∈ heuristic_aux 1000 10 [0, 0, 0], ∀ x ∈ row, (0 : ℝ) ≤ x) :=
  ⟨by norm_num, heuristic_zero_data 1000 10 [0, 0, 0] (by norm_num)⟩
